import Mathlib

/-!
Verification of the report-generation and time-filtering pipeline of the
data-center dashboard (src/app.py): the minimal PDF serializer `pdf_bytes`,
the statistics engine `stats_for`, the alert annotator `highlight_alerts`,
the time-window filter `time_filter_ui`, the CSV export, and the session
threshold configuration.  Python strings are modelled as `List Char`,
byte strings as `List Nat` (each entry a byte value), floats as `ℚ`,
timestamps as `Int` seconds since an epoch, and dates as `Int` day indices
(so date `d` at 00:00:00 is second `d * 86400`).
-/

namespace Dashboard

/-- Characters of a Lean string literal, used to transliterate the Python
string literals appearing in src/app.py. -/
def lchars (s : String) : List Char := s.data

/-- Byte values of an ASCII string literal, used to transliterate the Python
bytes literals appearing in `pdf_bytes` (src/app.py lines 19-36). -/
def ascii (s : String) : List Nat := s.data.map Char.toNat

/-- Decimal rendering worker: structurally recursive on a fuel argument so
that the kernel can evaluate it (`fuel > n` always suffices). -/
def natToStrAux : Nat → Nat → List Char
  | 0, _ => []
  | fuel + 1, n =>
      if n < 10 then [Nat.digitChar n]
      else natToStrAux fuel (n / 10) ++ [Nat.digitChar (n % 10)]

/-- Decimal rendering of a natural number, as Python's `str` produces it. -/
def natToStr (n : Nat) : List Char := natToStrAux (n + 1) n

/-- Decimal rendering of an integer, as Python's `str` produces it. -/
def intToStr (i : Int) : List Char :=
  if i < 0 then '-' :: natToStr i.natAbs else natToStr i.toNat

/-- Numeric value of a string of decimal digits (the inverse reading used to
state that the xref entries and `startxref` value denote the recorded
offsets). -/
def natFromDigits (ds : List Char) : Nat :=
  ds.foldl (fun a c => a * 10 + (c.toNat - 48)) 0

/-- Zero-padded decimal rendering, as Python's `f"{n:010d}"` produces it
(src/app.py line 34). -/
def padZeros (n w : Nat) : List Char :=
  List.replicate (w - (natToStr n).length) '0' ++ natToStr n

theorem digitChar_toNat {d : Nat} (h : d < 10) :
    (Nat.digitChar d).toNat = 48 + d := by
  interval_cases d <;> rfl

theorem digitChar_lt {d : Nat} (h : d < 10) : (Nat.digitChar d).toNat < 128 := by
  interval_cases d <;> decide

theorem natToStrAux_all_lt (fuel : Nat) :
    ∀ (n : Nat), ∀ c ∈ natToStrAux fuel n, c.toNat < 128 := by
  induction fuel with
  | zero => intro n c hc; simp [natToStrAux] at hc
  | succ fuel ih =>
      intro n c hc
      rw [natToStrAux] at hc
      split at hc
      · rcases List.mem_singleton.mp hc with rfl
        exact digitChar_lt (by omega)
      · rcases List.mem_append.mp hc with h1 | h2
        · exact ih (n / 10) c h1
        · rcases List.mem_singleton.mp h2 with rfl
          exact digitChar_lt (Nat.mod_lt _ (by omega))

theorem natToStr_all_lt (n : Nat) : ∀ c ∈ natToStr n, c.toNat < 128 :=
  natToStrAux_all_lt (n + 1) n

theorem natToStr_ne_nil (n : Nat) : natToStr n ≠ [] := by
  rw [natToStr, natToStrAux]
  split <;> simp

theorem natFromDigits_natToStrAux (fuel : Nat) :
    ∀ (n : Nat), n < fuel → natFromDigits (natToStrAux fuel n) = n := by
  induction fuel with
  | zero => omega
  | succ fuel ih =>
      intro n hn
      rw [natToStrAux]
      split
      · simp only [natFromDigits, List.foldl_cons, List.foldl_nil]
        rw [digitChar_toNat (by omega)]
        omega
      · have hdiv : n / 10 < n := Nat.div_lt_self (by omega) (by omega)
        have ihn := ih (n / 10) (by omega)
        simp only [natFromDigits, List.foldl_append, List.foldl_cons, List.foldl_nil] at *
        rw [ihn, digitChar_toNat (Nat.mod_lt _ (by omega))]
        omega

theorem natFromDigits_natToStr (n : Nat) : natFromDigits (natToStr n) = n :=
  natFromDigits_natToStrAux (n + 1) n (by omega)

theorem natFromDigits_padZeros (n w : Nat) :
    natFromDigits (padZeros n w) = n := by
  have hz : ∀ k, List.foldl (fun a c => a * 10 + (c.toNat - 48)) 0
      (List.replicate k '0') = 0 := by
    intro k
    induction k with
    | zero => rfl
    | succ k ihk => simpa [List.replicate_succ] using ihk
  simp only [padZeros, natFromDigits, List.foldl_append, hz]
  exact natFromDigits_natToStr n

/-! ### The PDF serializer `pdf_bytes` (src/app.py lines 11-37) -/

/-- One step of the escape map: the combined effect on a single character of
the three sequential `str.replace` calls of line 13 of src/app.py. -/
def escChar (c : Char) : List Char :=
  if c = '\\' then ['\\', '\\']
  else if c = '(' then ['\\', '(']
  else if c = ')' then ['\\', ')']
  else [c]

/-- Python's `str.replace` for a single-character needle. -/
def replaceAll (needle : Char) (rep : List Char) : List Char → List Char
  | [] => []
  | c :: r => (if c = needle then rep else [c]) ++ replaceAll needle rep r

/-- The escape function of src/app.py line 13:
`s.replace("\\", "\\\\").replace("(", "\\(").replace(")", "\\)")`. -/
def escL (s : List Char) : List Char :=
  replaceAll ')' ['\\', ')'] (replaceAll '(' ['\\', '('] (replaceAll '\\' ['\\', '\\'] s))

/-- The show-text operator group for line `l` at index `i`
(the f-string on line 15 of src/app.py, with `y = 760` and `lh = 14`). -/
def pdfLine (i : Nat) (l : List Char) : List Char :=
  lchars "1 0 0 1 50 " ++ intToStr (760 - 14 * (i : Int)) ++ lchars " Tm " ++
    ('(' :: (escL l ++ [')'])) ++ lchars " Tj"

/-- The list comprehension with `enumerate` of src/app.py lines 14-16,
starting at index `i`. -/
def pdfParts (i : Nat) : List (List Char) → List (List Char)
  | [] => []
  | l :: r => pdfLine i l :: pdfParts (i + 1) r

/-- Python's `sep.join(parts)`. -/
def joinSep (sep : List Char) : List (List Char) → List Char
  | [] => []
  | [x] => x
  | x :: y :: r => x ++ sep ++ joinSep sep (y :: r)

/-- The content stream string of src/app.py lines 14-16. -/
def streamL (lines : List (List Char)) : List Char :=
  lchars "BT /F1 12 Tf " ++ joinSep [' '] (pdfParts 0 lines) ++ lchars " ET"

/-- Python's `str.encode("latin-1")` (src/app.py line 17): byte values if every
character is below U+0100, failure (a raised `UnicodeEncodeError`) otherwise. -/
def encodeLatin1 : List Char → Option (List Nat)
  | [] => some []
  | c :: r => if c.toNat < 256 then (encodeLatin1 r).map (c.toNat :: ·) else none

/-- The header `%PDF-1.4` entry `o[0]` of src/app.py line 20. -/
def OBJ0 : List Nat := ascii "%PDF-1.4\n"

/-- The Catalog object `o[1]` of src/app.py line 21. -/
def OBJ1 : List Nat := ascii "1 0 obj << /Type /Catalog /Pages 2 0 R >> endobj\n"

/-- The Pages object `o[2]` of src/app.py line 22. -/
def OBJ2 : List Nat := ascii "2 0 obj << /Type /Pages /Kids [3 0 R] /Count 1 >> endobj\n"

/-- The Page object `o[3]` of src/app.py lines 23-24. -/
def OBJ3 : List Nat :=
  ascii "3 0 obj << /Type /Page /Parent 2 0 R /MediaBox [0 0 612 792] /Resources << /Font << /F1 4 0 R >> >> /Contents 5 0 R >> endobj\n"

/-- The Font object `o[4]` of src/app.py line 25. -/
def OBJ4 : List Nat := ascii "4 0 obj << /Type /Font /Subtype /Type1 /BaseFont /Helvetica >> endobj\n"

/-- The Contents stream object `o[5]` of src/app.py line 26, for stream
bytes `sb`. -/
def OBJ5 (sb : List Nat) : List Nat :=
  ascii ("5 0 obj << /Length " ++ String.mk (natToStr sb.length) ++ " >> stream\n")
    ++ sb ++ ascii "\nendstream endobj\n"

/-- The object list `o` of src/app.py lines 19-27. -/
def objs (sb : List Nat) : List (List Nat) := [OBJ0, OBJ1, OBJ2, OBJ3, OBJ4, OBJ5 sb]

/-- `off[i]` of the loop on src/app.py lines 29-31: the byte offset at which
the `i`-th entry of `o` starts in the concatenated output. -/
def offAt (sb : List Nat) (i : Nat) : Nat :=
  (((objs sb).take i).map List.length).sum

/-- `xref_pos` of src/app.py line 32. -/
def xrefPos (sb : List Nat) : Nat := offAt sb 6

/-- The concatenation of the six objects (the value of `out` after the loop,
src/app.py lines 29-31). -/
def bodyB (sb : List Nat) : List Nat := (objs sb).flatten

/-- The cross-reference table of src/app.py lines 33-35. -/
def xrefB (sb : List Nat) : List Nat :=
  ascii "xref\n0 6\n0000000000 65535 f \n" ++
    ((List.range 5).map fun j =>
      (padZeros (offAt sb (j + 1)) 10 ++ lchars " 00000 n \n").map Char.toNat).flatten

/-- The trailer, `startxref` value and end-of-file marker of src/app.py
line 36. -/
def trailerB (sb : List Nat) : List Nat :=
  ascii "trailer << /Size 6 /Root 1 0 R >>\nstartxref\n" ++
    (natToStr (xrefPos sb)).map Char.toNat ++ ascii "\n%%EOF"

/-- The full document bytes returned by `pdf_bytes` for stream bytes `sb`. -/
def assemble (sb : List Nat) : List Nat := bodyB sb ++ xrefB sb ++ trailerB sb

/-- `pdf_bytes` of src/app.py lines 11-37.  Returns `none` exactly when the
latin-1 encoding of the content stream raises in Python. -/
def pdf_bytes (lines : List (List Char)) : Option (List Nat) :=
  match encodeLatin1 (streamL lines) with
  | some sb => some (assemble sb)
  | none => none

/-! ### The metrics table, statistics engine and alert annotator
(src/app.py lines 53-74) -/

/-- A cell of a metric column.  `num q` is a float value; `na` covers a
missing value (pandas `NaN`) and any value on which Python's `float(...)`
raises — both make `mean`/`max`/`min` skip the cell and make the alert
styling fall into its `except` branch. -/
inductive Cell where
  | num (q : ℚ)
  | na
deriving DecidableEq

/-- The numeric content of a cell, if any. -/
def Cell.toRat? : Cell → Option ℚ
  | .num q => some q
  | .na => none

/-- A pandas DataFrame as the pipeline sees it: named columns in order, and
rows of cells aligned with the columns. -/
structure MTable where
  cols : List String
  rows : List (List Cell)
deriving DecidableEq

/-- The three metric column names hard-coded in src/app.py lines 55 and 66. -/
def metricCols : List String := ["cpu", "memory", "disk"]

/-- The values of column `k` (`df[k]`), empty when the column is absent. -/
def colVals (t : MTable) (k : String) : List Cell :=
  match t.cols.findIdx? (fun c => c = k) with
  | some i => t.rows.map fun r => r.getD i .na
  | none => []

/-- The non-missing values of column `k`, the ones pandas aggregates over
(`skipna` default). -/
def presentVals (t : MTable) (k : String) : List ℚ :=
  (colVals t k).filterMap Cell.toRat?

/-- Pandas `Series.max` over the non-missing values (junk `0` for an empty
list, where pandas yields `NaN`). -/
def listMax : List ℚ → ℚ
  | [] => 0
  | [x] => x
  | x :: y :: r => max x (listMax (y :: r))

/-- Pandas `Series.min` over the non-missing values (junk `0` for an empty
list, where pandas yields `NaN`). -/
def listMin : List ℚ → ℚ
  | [] => 0
  | [x] => x
  | x :: y :: r => min x (listMin (y :: r))

/-- Pandas `Series.mean` over the non-missing values (division by zero in `ℚ`
yields `0` where pandas yields `NaN`). -/
def listMean (vs : List ℚ) : ℚ := vs.sum / (vs.length : ℚ)

/-- The per-metric body of `stats_for` (src/app.py lines 55-59): the branch on
`k in df.columns and len(df) > 0`. -/
def stats_for1 (t : MTable) (k : String) : ℚ × ℚ × ℚ :=
  if k ∈ t.cols ∧ t.rows ≠ [] then
    (listMean (presentVals t k), listMax (presentVals t k), listMin (presentVals t k))
  else (0, 0, 0)

/-- `stats_for` (src/app.py lines 53-60): the mapping from each metric name to
its (mean, max, min) triple. -/
def stats_for (t : MTable) : List (String × (ℚ × ℚ × ℚ)) :=
  metricCols.map fun k => (k, stats_for1 t k)

/-- The configured thresholds dict `{"cpu": _, "memory": _, "disk": _}`. -/
structure Thr where
  cpu : ℚ
  memory : ℚ
  disk : ℚ
deriving DecidableEq

/-- `thr[col]` for `col` one of the three metric names. -/
def Thr.get (t : Thr) (k : String) : ℚ :=
  if k = "cpu" then t.cpu else if k = "memory" then t.memory else t.disk

/-- The CSS string appended when a cell alerts (src/app.py line 68). -/
def HIGHLIGHT : String := "background-color:#ffd6d6"

/-- The style computed for one cell by `_style` inside `highlight_alerts`
(src/app.py lines 64-72): highlight iff the column is a metric column and
`float(row[col]) > thr[col]`; the `except` branch and non-metric columns
yield the empty style. -/
def styleCell (thr : Thr) (col : String) (cell : Cell) : String :=
  if col ∈ metricCols then
    match cell with
    | .num q => if thr.get col < q then HIGHLIGHT else ""
    | .na => ""
  else ""

/-- The per-row style list built by `_style` (src/app.py lines 63-73): one
entry per column of the row. -/
def styleRow (thr : Thr) (cols : List String) (row : List Cell) : List String :=
  (cols.zip row).map fun p => styleCell thr p.1 p.2

/-! ### The time-window filter `time_filter_ui` (src/app.py lines 76-107) -/

/-- The window choices of the selectbox on src/app.py line 86. `custom` carries
the chosen start and end dates as day indices. -/
inductive TimeWindow where
  | all
  | lastNDays (n : Nat)
  | custom (startD endD : Int)

/-- A row as the time filter sees it: its (possibly missing) timestamp in
seconds, and an opaque identifier standing for the rest of the row. -/
structure FRow where
  ts : Option Int
  id : Nat
deriving DecidableEq

/-- A DataFrame as the time filter sees it: whether a `timestamp` column
exists, and the rows. -/
structure FTable where
  hasTsCol : Bool
  rows : List FRow
deriving DecidableEq

/-- `df.dropna(subset=["timestamp"])` (src/app.py line 81). -/
def validRows (rs : List FRow) : List FRow := rs.filter fun r => r.ts.isSome

/-- Seconds per day: `pd.Timedelta(days=1)` in seconds. -/
def secPerDay : Int := 86400

/-- The row predicate of the Custom branch (src/app.py line 101):
`start_ts <= timestamp <= end_ts` with `start_ts = Timestamp(start)` and
`end_ts = Timestamp(end) + 1 day - 1 second`. -/
def inCustom (startD endD : Int) (r : FRow) : Bool :=
  match r.ts with
  | some x => decide (startD * secPerDay ≤ x) && decide (x ≤ (endD + 1) * secPerDay - 1)
  | none => false

/-- The row predicate of the Last-N-days branch (src/app.py lines 104-106):
`timestamp >= now - days`. -/
def inLastN (now : Int) (n : Nat) (r : FRow) : Bool :=
  match r.ts with
  | some x => decide (now - (n : Int) * secPerDay ≤ x)
  | none => false

/-- `time_filter_ui` (src/app.py lines 76-107), with the selectbox choice,
the chosen custom dates and "now" as parameters. -/
def time_filter (t : FTable) (w : TimeWindow) (now : Int) : FTable × String :=
  if t.hasTsCol = false then (t, "All")
  else
    let v := validRows t.rows
    if v = [] then (t, "All")
    else
      match w with
      | .all => (⟨true, v⟩, "All")
      | .custom s e =>
          (⟨true, v.filter (inCustom s e)⟩,
            "Custom: " ++ String.mk (intToStr s) ++ " to " ++ String.mk (intToStr e))
      | .lastNDays n =>
          (⟨true, v.filter (inLastN now n)⟩,
            "Last " ++ String.mk (natToStr n) ++ " days")

/-! ### Session state and the configuration page (src/app.py lines 109-111
and 177-185) -/

/-- The per-session state relevant to the thresholds:
`st.session_state.thr`. -/
structure Session where
  thr : Thr
deriving DecidableEq

/-- The defaults installed by `st.session_state.setdefault` on src/app.py
line 111. -/
def initSession : Session := ⟨⟨80, 85, 90⟩⟩

/-- `page_config` (src/app.py lines 177-185) as a transformer of the session
state.  `sliders` holds the values returned by the three slider widgets on
this run and `savePressed` whether the Save button was clicked.  In the
source, `t = st.session_state.thr` binds `t` to the very dict object stored
in the session, so the three slider assignments `t["cpu"] = ...` mutate the
stored thresholds immediately; the `if st.button("Save")` branch re-assigns
the same object and changes nothing further. -/
def page_config (s : Session) (sliders : Thr) (savePressed : Bool) : Session :=
  let t := sliders
  let s1 : Session := { s with thr := t }
  if savePressed then { s1 with thr := t } else s1

/-! ### The CSV serializer (src/app.py line 250)

The CSV writer and reader are pandas' (`DataFrame.to_csv(index=False)` and
its inverse), not code of this repository.  The definitions below are
modelled from the spec. -/

/-- Modelled from the spec: the characters that force a field to be quoted
under the standard minimal CSV quoting the spec requires for "text containing
commas/quotes/newlines" (the missing code is pandas' csv writer, called on
src/app.py line 250). -/
def needsQuote (c : Char) : Bool :=
  c = ',' || c = '"' || c = '\n' || c = '\r'

/-- Modelled from the spec: doubling of quote characters inside a quoted
CSV field. -/
def escQuotes : List Char → List Char
  | [] => []
  | c :: r => if c = '"' then '"' :: '"' :: escQuotes r else c :: escQuotes r

/-- Modelled from the spec: one serialized CSV field — quoted, with inner
quotes doubled, exactly when it contains a delimiter, quote or line break. -/
def encField (f : List Char) : List Char :=
  if f.any needsQuote then '"' :: (escQuotes f ++ ['"']) else f

/-- Modelled from the spec: one serialized CSV record — fields joined by
commas. -/
def encRecord : List (List Char) → List Char
  | [] => []
  | [f] => encField f
  | f :: g :: r => encField f ++ ',' :: encRecord (g :: r)

/-- Modelled from the spec: a serialized CSV document — header record first,
one record per row, each record terminated by a newline (the missing code is
pandas' `to_csv(index=False)`, UTF-8, no index column). -/
def encCsv (rs : List (List (List Char))) : List Char :=
  (rs.map fun r => encRecord r ++ ['\n']).flatten

/-- Modelled from the spec: scan an unquoted field, stopping at a comma,
a newline or the end of input; returns the field and the unconsumed rest. -/
def takeUnquoted : List Char → List Char × List Char
  | [] => ([], [])
  | c :: r =>
      if c = ',' || c = '\n' then ([], c :: r)
      else
        let p := takeUnquoted r
        (c :: p.1, p.2)

/-- Modelled from the spec: scan the body of a quoted field, after its opening
quote; a doubled quote is a literal quote, a single quote closes the field
(a field whose quote is never closed is malformed: `none`). -/
def takeQuoted : List Char → Option (List Char × List Char)
  | [] => none
  | [c] => if c = '"' then some ([], []) else none
  | c :: d :: r =>
      if c = '"' then
        if d = '"' then (takeQuoted r).map fun p => ('"' :: p.1, p.2)
        else some ([], d :: r)
      else (takeQuoted (d :: r)).map fun p => (c :: p.1, p.2)

/-- Modelled from the spec: parse one CSV field. -/
def parseField (s : List Char) : Option (List Char × List Char) :=
  match s with
  | [] => some ([], [])
  | c :: r => if c = '"' then takeQuoted r else some (takeUnquoted (c :: r))

/-- Modelled from the spec: parse one CSV record (fuel bounds the number of
fields). -/
def parseRecordF : Nat → List Char → Option (List (List Char) × List Char)
  | 0, _ => none
  | fuel + 1, s =>
    match parseField s with
    | none => none
    | some (f, rest) =>
      match rest with
      | ',' :: r2 => (parseRecordF fuel r2).map fun p => (f :: p.1, p.2)
      | '\n' :: r2 => some ([f], r2)
      | [] => some ([f], [])
      | _ => none

/-- Modelled from the spec: parse a CSV document into its records (fuel
bounds the number of records). -/
def parseCsvF : Nat → List Char → Option (List (List (List Char)))
  | 0, _ => none
  | fuel + 1, s =>
    match s with
    | [] => some []
    | _ =>
      match parseRecordF (s.length + 1) s with
      | none => none
      | some (rec, rest) => (parseCsvF fuel rest).map (rec :: ·)

/-- Modelled from the spec: parse a CSV document. -/
def parseCsv (s : List Char) : Option (List (List (List Char))) :=
  parseCsvF (s.length + 1) s

/-! ### Lemmas about the escape function and the content stream -/

theorem replaceAll_append (needle : Char) (rep a b : List Char) :
    replaceAll needle rep (a ++ b) = replaceAll needle rep a ++ replaceAll needle rep b := by
  induction a with
  | nil => rfl
  | cons c r ih => simp [replaceAll, ih]

theorem escL_cons (c : Char) (s : List Char) :
    escL (c :: s) = escChar c ++ escL s := by
  show escL ([c] ++ s) = _
  by_cases h1 : c = '\\'
  · subst h1
    simp [escL, escChar, replaceAll, replaceAll_append]
  · by_cases h2 : c = '('
    · subst h2
      simp [escL, escChar, replaceAll, replaceAll_append]
    · by_cases h3 : c = ')'
      · subst h3
        simp [escL, escChar, replaceAll, replaceAll_append]
      · simp [escL, escChar, replaceAll, replaceAll_append, h1, h2, h3]

theorem escL_eq_flatMap (s : List Char) : escL s = s.flatMap escChar := by
  induction s with
  | nil => rfl
  | cons c r ih => rw [escL_cons, List.flatMap_cons, ih]

theorem encodeLatin1_of_lt {l : List Char} (h : ∀ c ∈ l, c.toNat < 256) :
    encodeLatin1 l = some (l.map Char.toNat) := by
  induction l with
  | nil => rfl
  | cons c r ih =>
      have hc : c.toNat < 256 := h c (List.mem_cons_self c r)
      have hr := ih fun x hx => h x (List.mem_cons_of_mem c hx)
      simp [encodeLatin1, hc, hr]

theorem encodeLatin1_some {l : List Char} {bs : List Nat}
    (h : encodeLatin1 l = some bs) : bs = l.map Char.toNat := by
  induction l generalizing bs with
  | nil => simpa [encodeLatin1] using h.symm
  | cons c r ih =>
      by_cases hc : c.toNat < 256
      · simp only [encodeLatin1, hc, if_true, Option.map_eq_some'] at h
        obtain ⟨bs', hbs', rfl⟩ := h
        simp [ih hbs']
      · simp [encodeLatin1, hc] at h

theorem isInfix_ext {α : Type} {l m a b : List α} (h : l <:+: m) :
    l <:+: a ++ m ++ b := by
  obtain ⟨s, t, rfl⟩ := h
  exact ⟨a ++ s, t ++ b, by simp⟩

theorem isInfix_map {α β : Type} (f : α → β) {l m : List α} (h : l <:+: m) :
    l.map f <:+: m.map f := by
  obtain ⟨s, t, rfl⟩ := h
  exact ⟨s.map f, t.map f, by simp⟩

theorem mem_joinSep_inf {sep : List Char} {x : List Char} :
    ∀ {xs : List (List Char)}, x ∈ xs → x <:+: joinSep sep xs
  | [], h => absurd h (List.not_mem_nil x)
  | [y], h => by
      rcases List.mem_singleton.mp h with rfl
      simp [joinSep]
  | y :: z :: r, h => by
      rcases List.mem_cons.mp h with rfl | h2
      · exact ⟨[], sep ++ joinSep sep (z :: r), by simp [joinSep]⟩
      · have := @mem_joinSep_inf sep x (z :: r) h2
        obtain ⟨s, t, hst⟩ := this
        exact ⟨y ++ sep ++ s, t, by simp [joinSep, ← hst]⟩

theorem mem_flatten_inf {α : Type} {x : List α} :
    ∀ {L : List (List α)}, x ∈ L → x <:+: L.flatten
  | [], h => absurd h (List.not_mem_nil x)
  | y :: r, h => by
      rcases List.mem_cons.mp h with rfl | h2
      · exact ⟨[], r.flatten, by simp⟩
      · obtain ⟨s, t, hst⟩ := mem_flatten_inf h2
        exact ⟨y ++ s, t, by simp [← hst]⟩

theorem pdfParts_mem {l : List Char} :
    ∀ {lines : List (List Char)} (j : Nat), l ∈ lines →
      ∃ i, pdfLine i l ∈ pdfParts j lines
  | [], _, h => absurd h (List.not_mem_nil l)
  | y :: r, j, h => by
      rcases List.mem_cons.mp h with rfl | h2
      · exact ⟨j, List.mem_cons_self _ _⟩
      · obtain ⟨i, hi⟩ := pdfParts_mem (j + 1) h2
        exact ⟨i, List.mem_cons_of_mem _ hi⟩

theorem escGroup_inf_pdfLine (i : Nat) (l : List Char) :
    ('(' :: (escL l ++ [')'])) <:+: pdfLine i l :=
  ⟨lchars "1 0 0 1 50 " ++ intToStr (760 - 14 * (i : Int)) ++ lchars " Tm ",
    lchars " Tj", by simp [pdfLine]⟩

theorem escGroup_inf_streamL {l : List Char} {lines : List (List Char)}
    (h : l ∈ lines) : ('(' :: (escL l ++ [')'])) <:+: streamL lines := by
  obtain ⟨i, hi⟩ := pdfParts_mem 0 h
  have h1 : ('(' :: (escL l ++ [')'])) <:+: joinSep [' '] (pdfParts 0 lines) :=
    (escGroup_inf_pdfLine i l).trans (mem_joinSep_inf hi)
  obtain ⟨s, t, hst⟩ := h1
  exact ⟨lchars "BT /F1 12 Tf " ++ s, t ++ lchars " ET", by simp [streamL, ← hst]⟩

theorem sb_inf_OBJ5 (sb : List Nat) : sb <:+: OBJ5 sb :=
  ⟨ascii ("5 0 obj << /Length " ++ String.mk (natToStr sb.length) ++ " >> stream\n"),
    ascii "\nendstream endobj\n", by simp [OBJ5]⟩

theorem OBJ5_inf_assemble (sb : List Nat) : OBJ5 sb <:+: assemble sb := by
  have h1 : OBJ5 sb <:+: bodyB sb :=
    mem_flatten_inf (by simp [objs])
  obtain ⟨s, t, hst⟩ := h1
  exact ⟨s, t ++ (xrefB sb ++ trailerB sb), by simp [assemble, ← hst]⟩

theorem escGroupBytes_inf_pdf {l : List Char} {lines : List (List Char)}
    {out : List Nat} (hmem : l ∈ lines) (hpdf : pdf_bytes lines = some out) :
    (('(' :: (escL l ++ [')'])).map Char.toNat) <:+: out := by
  unfold pdf_bytes at hpdf
  rcases henc : encodeLatin1 (streamL lines) with _ | sb
  · rw [henc] at hpdf; cases hpdf
  · rw [henc] at hpdf
    obtain rfl : assemble sb = out := by simpa using hpdf
    have hsb : sb = (streamL lines).map Char.toNat := encodeLatin1_some henc
    have h1 : (('(' :: (escL l ++ [')'])).map Char.toNat) <:+: sb := by
      rw [hsb]
      exact isInfix_map Char.toNat (escGroup_inf_streamL hmem)
    exact h1.trans ((sb_inf_OBJ5 sb).trans (OBJ5_inf_assemble sb))

/-! ### Lemmas about byte offsets in the assembled document -/

theorem sum_take_le (l : List Nat) (i : Nat) : (l.take i).sum ≤ l.sum := by
  induction l generalizing i with
  | nil => simp
  | cons x r ih =>
      cases i with
      | zero => simp
      | succ i => simpa using ih i

theorem drop_append_le {α : Type} (l₁ l₂ : List α) {n : Nat} (h : n ≤ l₁.length) :
    (l₁ ++ l₂).drop n = l₁.drop n ++ l₂ := by
  induction l₁ generalizing n with
  | nil =>
      have hn : n = 0 := by simpa using h
      subst hn
      simp
  | cons x r ih =>
      cases n with
      | zero => simp
      | succ n => simpa using ih (by simpa using h)

theorem flatten_drop_off {α : Type} :
    ∀ (L : List (List α)) (i : Nat),
      (L.flatten).drop (((L.take i).map List.length).sum) = (L.drop i).flatten
  | _, 0 => by simp
  | [], _ + 1 => by simp
  | x :: r, i + 1 => by
      have ih := flatten_drop_off r i
      simp only [List.take_succ_cons, List.map_cons, List.sum_cons, List.flatten_cons,
        List.drop_succ_cons]
      rw [← List.drop_drop, List.drop_left]
      exact ih

theorem getD_pref_drop {α : Type} (L : List (List α)) (rest : List α) (i : Nat)
    (hi : i < L.length) :
    L.getD i [] <+: ((L.flatten ++ rest).drop (((L.take i).map List.length).sum)) := by
  have hle : ((L.take i).map List.length).sum ≤ L.flatten.length := by
    rw [List.length_flatten, List.map_take]
    exact sum_take_le _ _
  rw [drop_append_le _ _ hle, flatten_drop_off]
  rw [List.drop_eq_getElem_cons hi]
  rw [List.getD_eq_getElem?_getD, List.getElem?_eq_getElem hi]
  refine ⟨(L.drop (i + 1)).flatten ++ rest, ?_⟩
  rw [List.flatten_cons, List.append_assoc, Option.getD_some]

theorem ascii_append (s1 s2 : String) : ascii (s1 ++ s2) = ascii s1 ++ ascii s2 := by
  simp [ascii]

theorem assemble_drop_obj (sb : List Nat) (i : Nat) (hi : i < 6) :
    (objs sb).getD i [] <+: (assemble sb).drop (offAt sb i) := by
  have hlen : (objs sb).length = 6 := by simp [objs]
  have h := getD_pref_drop (objs sb) (xrefB sb ++ trailerB sb) i (by omega)
  simpa [assemble, bodyB, offAt, List.append_assoc] using h

theorem offAt_six (sb : List Nat) : offAt sb 6 = (bodyB sb).length := by
  simp [offAt, bodyB, objs, List.length_flatten]

theorem assemble_drop_xrefPos (sb : List Nat) :
    (assemble sb).drop (xrefPos sb) = xrefB sb ++ trailerB sb := by
  rw [xrefPos, offAt_six, assemble, List.append_assoc, List.drop_left]

theorem xref_keyword_pref (sb : List Nat) :
    ascii "xref" <+: (assemble sb).drop (xrefPos sb) := by
  rw [assemble_drop_xrefPos]
  have hx : ("xref\n0 6\n0000000000 65535 f \n" : String) =
      "xref" ++ "\n0 6\n0000000000 65535 f \n" := rfl
  refine ⟨ascii "\n0 6\n0000000000 65535 f \n" ++
    (((List.range 5).map fun j =>
      (padZeros (offAt sb (j + 1)) 10 ++ lchars " 00000 n \n").map Char.toNat).flatten)
    ++ trailerB sb, ?_⟩
  rw [xrefB, hx, ascii_append]
  simp [List.append_assoc]

theorem trailer_root_inf (sb : List Nat) :
    ascii "trailer << /Size 6 /Root 1 0 R >>" <:+: assemble sb := by
  have hx : ("trailer << /Size 6 /Root 1 0 R >>\nstartxref\n" : String) =
      "trailer << /Size 6 /Root 1 0 R >>" ++ "\nstartxref\n" := rfl
  refine ⟨bodyB sb ++ xrefB sb,
    ascii "\nstartxref\n" ++ (natToStr (xrefPos sb)).map Char.toNat ++ ascii "\n%%EOF", ?_⟩
  rw [assemble, trailerB, hx, ascii_append]
  simp [List.append_assoc]

theorem startxref_suffix (sb : List Nat) :
    (ascii "startxref\n" ++ (natToStr (xrefPos sb)).map Char.toNat ++ ascii "\n%%EOF")
      <:+ assemble sb := by
  have hx : ("trailer << /Size 6 /Root 1 0 R >>\nstartxref\n" : String) =
      "trailer << /Size 6 /Root 1 0 R >>\n" ++ "startxref\n" := rfl
  refine ⟨bodyB sb ++ xrefB sb ++ ascii "trailer << /Size 6 /Root 1 0 R >>\n", ?_⟩
  rw [assemble, trailerB, hx, ascii_append]
  simp [List.append_assoc]

theorem xref_entry_inf (sb : List Nat) (j : Nat) (hj : j < 5) :
    ((padZeros (offAt sb (j + 1)) 10 ++ lchars " 00000 n \n").map Char.toNat)
      <:+: assemble sb := by
  have hmem : ((padZeros (offAt sb (j + 1)) 10 ++ lchars " 00000 n \n").map Char.toNat)
      ∈ (List.range 5).map fun j =>
        (padZeros (offAt sb (j + 1)) 10 ++ lchars " 00000 n \n").map Char.toNat :=
    List.mem_map_of_mem _ (List.mem_range.mpr hj)
  have h1 := mem_flatten_inf hmem
  obtain ⟨s, t, hst⟩ := h1
  refine ⟨bodyB sb ++ (ascii "xref\n0 6\n0000000000 65535 f \n" ++ s),
    t ++ trailerB sb, ?_⟩
  rw [assemble, xrefB, ← hst]
  simp only [List.append_assoc]

/-! ### Character bounds for the content stream (totality of the latin-1
encoding) -/

theorem mem_joinSep {sep : List Char} {c : Char} :
    ∀ {xs : List (List Char)}, c ∈ joinSep sep xs → c ∈ sep ∨ ∃ x ∈ xs, c ∈ x
  | [], h => by simp [joinSep] at h
  | [y], h => Or.inr ⟨y, List.mem_singleton_self y, by simpa [joinSep] using h⟩
  | y :: z :: r, h => by
      rw [joinSep] at h
      rcases List.mem_append.mp h with h1 | h2
      · rcases List.mem_append.mp h1 with h3 | h4
        · exact Or.inr ⟨y, List.mem_cons_self _ _, h3⟩
        · exact Or.inl h4
      · rcases mem_joinSep h2 with h5 | ⟨x, hx, hcx⟩
        · exact Or.inl h5
        · exact Or.inr ⟨x, List.mem_cons_of_mem _ hx, hcx⟩

theorem pdfParts_sub :
    ∀ {lines : List (List Char)} {j : Nat} {p : List Char},
      p ∈ pdfParts j lines → ∃ i l, l ∈ lines ∧ p = pdfLine i l
  | [], _, _, h => by simp [pdfParts] at h
  | y :: r, j, p, h => by
      rw [pdfParts] at h
      rcases List.mem_cons.mp h with rfl | h2
      · exact ⟨j, y, List.mem_cons_self _ _, rfl⟩
      · obtain ⟨i, l, hl, hp⟩ := pdfParts_sub h2
        exact ⟨i, l, List.mem_cons_of_mem _ hl, hp⟩

theorem intToStr_all_lt (i : Int) : ∀ c ∈ intToStr i, c.toNat < 128 := by
  intro c hc
  unfold intToStr at hc
  split at hc
  · rcases List.mem_cons.mp hc with rfl | h2
    · decide
    · exact natToStr_all_lt _ c h2
  · exact natToStr_all_lt _ c hc

theorem escL_chars {l : List Char} {c : Char} (h : c ∈ escL l) :
    c ∈ l ∨ c.toNat < 128 := by
  rw [escL_eq_flatMap] at h
  obtain ⟨a, ha, hca⟩ := List.mem_flatMap.mp h
  by_cases h1 : a = '\\'
  · subst h1
    rw [escChar, if_pos rfl] at hca
    rcases List.mem_cons.mp hca with rfl | h2
    · exact Or.inr (by decide)
    · rcases List.mem_singleton.mp h2 with rfl
      exact Or.inr (by decide)
  · by_cases h2 : a = '('
    · subst h2
      rw [escChar, if_neg h1, if_pos rfl] at hca
      rcases List.mem_cons.mp hca with rfl | h3
      · exact Or.inr (by decide)
      · rcases List.mem_singleton.mp h3 with rfl
        exact Or.inr (by decide)
    · by_cases h3 : a = ')'
      · subst h3
        rw [escChar, if_neg h1, if_neg h2, if_pos rfl] at hca
        rcases List.mem_cons.mp hca with rfl | h4
        · exact Or.inr (by decide)
        · rcases List.mem_singleton.mp h4 with rfl
          exact Or.inr (by decide)
      · rw [escChar, if_neg h1, if_neg h2, if_neg h3] at hca
        rcases List.mem_singleton.mp hca with rfl
        exact Or.inl ha

theorem pdfLine_chars {i : Nat} {l : List Char} {c : Char}
    (hc : c ∈ pdfLine i l) : c ∈ l ∨ c.toNat < 128 := by
  unfold pdfLine at hc
  rcases List.mem_append.mp hc with h | h
  · rcases List.mem_append.mp h with h | h
    · rcases List.mem_append.mp h with h | h
      · rcases List.mem_append.mp h with h | h
        · exact Or.inr ((by decide : ∀ x ∈ lchars "1 0 0 1 50 ", Char.toNat x < 128) c h)
        · exact Or.inr (intToStr_all_lt _ c h)
      · exact Or.inr ((by decide : ∀ x ∈ lchars " Tm ", Char.toNat x < 128) c h)
    · rcases List.mem_cons.mp h with rfl | h
      · exact Or.inr (by decide)
      · rcases List.mem_append.mp h with h | h
        · exact escL_chars h
        · rcases List.mem_singleton.mp h with rfl
          exact Or.inr (by decide)
  · exact Or.inr ((by decide : ∀ x ∈ lchars " Tj", Char.toNat x < 128) c h)

theorem streamL_chars {lines : List (List Char)} {c : Char}
    (hl : ∀ l ∈ lines, ∀ c ∈ l, c.toNat < 256) (hc : c ∈ streamL lines) :
    c.toNat < 256 := by
  unfold streamL at hc
  rcases List.mem_append.mp hc with h1 | h2
  · rcases List.mem_append.mp h1 with h3 | h4
    · exact (by decide : ∀ x ∈ lchars "BT /F1 12 Tf ", Char.toNat x < 256) c h3
    · rcases mem_joinSep h4 with h5 | ⟨p, hp, hcp⟩
      · exact (by decide : ∀ x ∈ [' '], Char.toNat x < 256) c h5
      · obtain ⟨i, l, hml, rfl⟩ := pdfParts_sub hp
        rcases pdfLine_chars hcp with h6 | h6
        · exact hl l hml c h6
        · omega
  · exact (by decide : ∀ x ∈ lchars " ET", Char.toNat x < 256) c h2

/-! ### Claim theorems: the PDF serializer -/

/-- The document produced for the single line `A(b)\c` of the spec's test
property. -/
def pdfA : List Nat := (pdf_bytes [lchars "A(b)\\c"]).getD []

/-- Claim C1: the PDF serializer escapes backslash, `(` and `)` in each line
(`\` to `\\`, `(` to `\(`, `)` to `\)`) before embedding the line between
parentheses in the content stream, and `toPdf(["A(b)\c"])` embeds the escaped
sequence `A\(b\)\\c` in its output bytes. -/
theorem c1_pdf_escaping :
    (∀ s : List Char, escL s = s.flatMap escChar)
    ∧ (∀ (lines : List (List Char)) (l : List Char) (out : List Nat),
        l ∈ lines → pdf_bytes lines = some out →
          (('(' :: (escL l ++ [')'])).map Char.toNat) <:+: out)
    ∧ pdf_bytes [lchars "A(b)\\c"] = some pdfA
    ∧ ((lchars "A\\(b\\)\\\\c").map Char.toNat) <:+: pdfA := by
  refine ⟨escL_eq_flatMap, fun lines l out hm hp => escGroupBytes_inf_pdf hm hp, rfl, ?_⟩
  have h1 : escL (lchars "A(b)\\c") = lchars "A\\(b\\)\\\\c" := by decide
  have hp : pdf_bytes [lchars "A(b)\\c"] = some pdfA := rfl
  have h2 := escGroupBytes_inf_pdf (List.mem_singleton_self (lchars "A(b)\\c")) hp
  have h3 : ((lchars "A\\(b\\)\\\\c").map Char.toNat) <:+:
      (('(' :: (escL (lchars "A(b)\\c") ++ [')'])).map Char.toNat) := by
    rw [h1]
    exact isInfix_map _ ⟨['('], [')'], rfl⟩
  exact h3.trans h2

/-- Witness for C1 at the concrete input `["hi"]`: the escaped, parenthesised
line is embedded in the produced document. -/
theorem c1_pdf_escaping_w :
    (('(' :: (escL (lchars "hi") ++ [')'])).map Char.toNat) <:+:
      (assemble ((streamL [lchars "hi"]).map Char.toNat)) :=
  c1_pdf_escaping.2.1 [lchars "hi"] (lchars "hi")
    (assemble ((streamL [lchars "hi"]).map Char.toNat))
    (List.mem_singleton_self _) rfl

/-- Claim C2: for every input whose content stream encodes, the document has
objects 1-5 beginning exactly at the recorded offsets, xref entries whose
ten-digit fields denote those offsets, a trailer naming object 1 as root, and
a `startxref` value that is the byte offset of the `xref` keyword (the bytes
at position `xrefPos` start with `xref`, and the digits printed after
`startxref` denote `xrefPos`). -/
theorem c2_xref_structure (lines : List (List Char)) (sb : List Nat)
    (h : encodeLatin1 (streamL lines) = some sb) :
    pdf_bytes lines = some (assemble sb)
    ∧ (∀ i, i < 6 → (objs sb).getD i [] <+: (assemble sb).drop (offAt sb i))
    ∧ (∀ j, j < 5 →
        ((padZeros (offAt sb (j + 1)) 10 ++ lchars " 00000 n \n").map Char.toNat)
          <:+: assemble sb
        ∧ natFromDigits (padZeros (offAt sb (j + 1)) 10) = offAt sb (j + 1))
    ∧ ascii "trailer << /Size 6 /Root 1 0 R >>" <:+: assemble sb
    ∧ ascii "xref" <+: (assemble sb).drop (xrefPos sb)
    ∧ (ascii "startxref\n" ++ (natToStr (xrefPos sb)).map Char.toNat ++ ascii "\n%%EOF")
        <:+ assemble sb
    ∧ natFromDigits (natToStr (xrefPos sb)) = xrefPos sb := by
  refine ⟨?_, fun i hi => assemble_drop_obj sb i hi,
    fun j hj => ⟨xref_entry_inf sb j hj, natFromDigits_padZeros _ _⟩,
    trailer_root_inf sb, xref_keyword_pref sb, startxref_suffix sb,
    natFromDigits_natToStr _⟩
  unfold pdf_bytes
  rw [h]

/-- Witness for C2 at the concrete input `["hi"]`. -/
theorem c2_xref_structure_w :
    pdf_bytes [lchars "hi"] = some (assemble ((streamL [lchars "hi"]).map Char.toNat))
    ∧ ascii "xref" <+:
        ((assemble ((streamL [lchars "hi"]).map Char.toNat)).drop
          (xrefPos ((streamL [lchars "hi"]).map Char.toNat))) := by
  have h := c2_xref_structure [lchars "hi"] ((streamL [lchars "hi"]).map Char.toNat) rfl
  exact ⟨h.1, h.2.2.2.2.1⟩

/-- Counterexample to claim C9 as stated: `pdf_bytes` does not return bytes
for every sequence of input lines.  On a line containing `€` (U+20AC), the
latin-1 encoding of the content stream fails — in Python,
`stream.encode("latin-1")` on src/app.py line 17 raises `UnicodeEncodeError`. -/
theorem c9_pdf_non_latin1_cex : pdf_bytes [['€']] = none := by decide

/-- Claim C9 (amended): the modelled pipeline functions return well-defined
degraded values rather than failing, except that the PDF serializer requires
every character of every line to be latin-1 encodable (code point below 256);
for all such inputs `pdf_bytes` returns bytes. -/
theorem c9_pdf_total_on_latin1 (lines : List (List Char))
    (h : ∀ l ∈ lines, ∀ c ∈ l, c.toNat < 256) :
    ∃ out, pdf_bytes lines = some out := by
  have henc : encodeLatin1 (streamL lines) = some ((streamL lines).map Char.toNat) :=
    encodeLatin1_of_lt fun c hc => streamL_chars h hc
  exact ⟨assemble ((streamL lines).map Char.toNat), by unfold pdf_bytes; rw [henc]⟩

/-- Witness for the amended C9 at the concrete input `["hi"]`. -/
theorem c9_pdf_total_on_latin1_w : ∃ out, pdf_bytes [lchars "hi"] = some out :=
  c9_pdf_total_on_latin1 [lchars "hi"] (by decide)

/-! ### Claim theorems: the time-window filter -/

/-- Claim C6: with no timestamp column, or with no row carrying a valid
timestamp, the filter is a no-op for every requested window: it returns the
original table (missing-timestamp rows included) and the label `All`. -/
theorem c6_filter_noop (t : FTable) (w : TimeWindow) (now : Int)
    (h : t.hasTsCol = false ∨ validRows t.rows = []) :
    time_filter t w now = (t, "All") := by
  unfold time_filter
  rcases h with h | h
  · rw [h]
    simp
  · by_cases hc : t.hasTsCol = false
    · rw [hc]
      simp
    · simp [hc, h]

/-- Witness for C6: a table whose only row has an unparseable timestamp is
returned unchanged under a custom window. -/
theorem c6_filter_noop_w :
    time_filter ⟨true, [⟨none, 7⟩]⟩ (.custom 0 1) 0 = (⟨true, [⟨none, 7⟩]⟩, "All") :=
  c6_filter_noop ⟨true, [⟨none, 7⟩]⟩ (.custom 0 1) 0 (Or.inr (by decide))

/-- Claim C7: for the `All` window on a table with at least one valid
timestamp, the filter returns exactly the rows whose timestamp is valid, as a
sublist of the source rows (hence no duplication and no reordering), with
label `All`. -/
theorem c7_all_window (t : FTable) (now : Int)
    (h1 : t.hasTsCol = true) (h2 : validRows t.rows ≠ []) :
    time_filter t .all now = (⟨true, validRows t.rows⟩, "All")
    ∧ (time_filter t .all now).1.rows.Sublist t.rows
    ∧ (∀ r, r ∈ (time_filter t .all now).1.rows ↔ r ∈ t.rows ∧ r.ts.isSome) := by
  have heq : time_filter t .all now = (⟨true, validRows t.rows⟩, "All") := by
    unfold time_filter
    rw [h1]
    simp [h2]
  refine ⟨heq, ?_, ?_⟩
  · rw [heq]
    exact List.filter_sublist t.rows
  · intro r
    rw [heq]
    simp [validRows, List.mem_filter]

/-- Witness for C7 at a concrete table: the row with a missing timestamp is
dropped, the two valid rows are kept in source order. -/
theorem c7_all_window_w :
    time_filter ⟨true, [⟨some 5, 0⟩, ⟨none, 1⟩, ⟨some 9, 2⟩]⟩ .all 0
      = (⟨true, [⟨some 5, 0⟩, ⟨some 9, 2⟩]⟩, "All") := by
  have h := (c7_all_window ⟨true, [⟨some 5, 0⟩, ⟨none, 1⟩, ⟨some 9, 2⟩]⟩ 0
    rfl (by decide)).1
  rw [h]
  rfl

/-- Claim C3: for a `Custom(start, end)` window (on a table with a timestamp
column and at least one valid timestamp), the filter keeps exactly the rows
whose valid timestamp lies in the closed interval from `start` 00:00:00 to
`end` 23:59:59, preserving source order, and labels the result
`Custom: start to end`.  In particular a timestamp equal to `start` 00:00:00
or to `end` 23:59:59 satisfies the predicate and one equal to `end + 1 day`
00:00:00 does not. -/
theorem c3_custom_window (t : FTable) (s e now : Int)
    (h1 : t.hasTsCol = true) (h2 : validRows t.rows ≠ []) :
    time_filter t (.custom s e) now
      = (⟨true, t.rows.filter (inCustom s e)⟩,
         "Custom: " ++ String.mk (intToStr s) ++ " to " ++ String.mk (intToStr e))
    ∧ (∀ r, r ∈ (time_filter t (.custom s e) now).1.rows ↔
        r ∈ t.rows ∧ ∃ x, r.ts = some x ∧
          s * secPerDay ≤ x ∧ x ≤ (e + 1) * secPerDay - 1)
    ∧ (∀ r : FRow, ∀ x : Int, r.ts = some x →
        (inCustom s e r = true ↔ s * secPerDay ≤ x ∧ x ≤ (e + 1) * secPerDay - 1)) := by
  have hpt : ∀ r ∈ t.rows, (inCustom s e r && r.ts.isSome) = inCustom s e r := by
    intro r _
    cases hts : r.ts with
    | none => simp [inCustom, hts]
    | some x => simp [inCustom, hts]
  have heq : time_filter t (.custom s e) now
      = (⟨true, t.rows.filter (inCustom s e)⟩,
         "Custom: " ++ String.mk (intToStr s) ++ " to " ++ String.mk (intToStr e)) := by
    unfold time_filter
    rw [h1]
    simp only [Bool.true_eq_false, if_false, h2, if_neg h2]
    rw [validRows, List.filter_filter, List.filter_congr hpt]
  refine ⟨heq, ?_, ?_⟩
  · intro r
    rw [heq]
    simp only [List.mem_filter, inCustom]
    constructor
    · rintro ⟨hr, hb⟩
      refine ⟨hr, ?_⟩
      cases hts : r.ts with
      | none => rw [hts] at hb; cases hb
      | some x =>
          rw [hts] at hb
          simp only [Bool.and_eq_true, decide_eq_true_eq] at hb
          exact ⟨x, rfl, hb.1, hb.2⟩
    · rintro ⟨hr, x, hts, hlo, hhi⟩
      refine ⟨hr, ?_⟩
      rw [hts]
      simp [hlo, hhi]
  · intro r x hts
    simp [inCustom, hts]

/-- Witness for C3 at a concrete table with dates `start = 0`, `end = 1`:
the rows at second 0 (`start` 00:00:00) and second 172799 (`end` 23:59:59)
are kept, the row at second 172800 (`end + 1 day` 00:00:00) and the row with
a missing timestamp are dropped; the label is `Custom: 0 to 1`. -/
theorem c3_custom_window_w :
    time_filter ⟨true, [⟨some 0, 0⟩, ⟨some 172799, 1⟩, ⟨some 172800, 2⟩, ⟨none, 3⟩]⟩
        (.custom 0 1) 0
      = (⟨true, [⟨some 0, 0⟩, ⟨some 172799, 1⟩]⟩, "Custom: 0 to 1") := by
  have h := (c3_custom_window
    ⟨true, [⟨some 0, 0⟩, ⟨some 172799, 1⟩, ⟨some 172800, 2⟩, ⟨none, 3⟩]⟩
    0 1 0 rfl (by decide)).1
  rw [h]
  rfl

/-! ### Claim theorems: the statistics engine -/

theorem listMax_mem : ∀ {vs : List ℚ}, vs ≠ [] → listMax vs ∈ vs
  | [], h => absurd rfl h
  | [x], _ => by simp [listMax]
  | x :: y :: r, _ => by
      rw [listMax]
      rcases max_cases x (listMax (y :: r)) with ⟨hmax, _⟩ | ⟨hmax, _⟩
      · rw [hmax]
        exact List.mem_cons_self _ _
      · rw [hmax]
        exact List.mem_cons_of_mem _ (listMax_mem (by simp))

theorem le_listMax : ∀ {vs : List ℚ}, ∀ x ∈ vs, x ≤ listMax vs
  | [], x, hx => absurd hx (List.not_mem_nil x)
  | [y], x, hx => by
      rcases List.mem_singleton.mp hx with rfl
      simp [listMax]
  | y :: z :: r, x, hx => by
      rw [listMax]
      rcases List.mem_cons.mp hx with rfl | h2
      · exact le_max_left _ _
      · exact le_trans (le_listMax x h2) (le_max_right _ _)

theorem listMin_mem : ∀ {vs : List ℚ}, vs ≠ [] → listMin vs ∈ vs
  | [], h => absurd rfl h
  | [x], _ => by simp [listMin]
  | x :: y :: r, _ => by
      rw [listMin]
      rcases min_cases x (listMin (y :: r)) with ⟨hmin, _⟩ | ⟨hmin, _⟩
      · rw [hmin]
        exact List.mem_cons_self _ _
      · rw [hmin]
        exact List.mem_cons_of_mem _ (listMin_mem (by simp))

theorem listMin_le : ∀ {vs : List ℚ}, ∀ x ∈ vs, listMin vs ≤ x
  | [], x, hx => absurd hx (List.not_mem_nil x)
  | [y], x, hx => by
      rcases List.mem_singleton.mp hx with rfl
      simp [listMin]
  | y :: z :: r, x, hx => by
      rw [listMin]
      rcases List.mem_cons.mp hx with rfl | h2
      · exact min_le_left _ _
      · exact le_trans (min_le_right _ _) (listMin_le x h2)

/-- The three-reading example table of the spec's test property 6. -/
def exTable : MTable := ⟨["cpu"], [[.num 90], [.num 50], [.num 85]]⟩

/-- Claim C4: for each metric, `stats_for` yields the sentinel `(0, 0, 0)`
when the column is absent or the table has no rows; otherwise it yields the
(mean, max, min) of the values present in the column — the mean times the
count equals the sum, and max/min are attained bounds.  On the example table
`[{cpu: 90}, {cpu: 50}, {cpu: 85}]` the cpu triple is `(75, 90, 50)`. -/
theorem c4_stats (t : MTable) (k : String) (hk : k ∈ metricCols) :
    (k, stats_for1 t k) ∈ stats_for t
    ∧ (¬(k ∈ t.cols ∧ t.rows ≠ []) → stats_for1 t k = (0, 0, 0))
    ∧ (k ∈ t.cols → t.rows ≠ [] →
        stats_for1 t k
          = (listMean (presentVals t k), listMax (presentVals t k),
              listMin (presentVals t k))
        ∧ (presentVals t k ≠ [] →
            listMean (presentVals t k) * ((presentVals t k).length : ℚ)
                = (presentVals t k).sum
            ∧ listMax (presentVals t k) ∈ presentVals t k
            ∧ (∀ x ∈ presentVals t k, x ≤ listMax (presentVals t k))
            ∧ listMin (presentVals t k) ∈ presentVals t k
            ∧ (∀ x ∈ presentVals t k, listMin (presentVals t k) ≤ x)))
    ∧ stats_for1 exTable "cpu" = (75, 90, 50) := by
  refine ⟨List.mem_map_of_mem _ hk, ?_, ?_, ?_⟩
  · intro h
    rw [stats_for1, if_neg h]
  · intro hc hr
    refine ⟨by rw [stats_for1, if_pos ⟨hc, hr⟩], fun hne => ⟨?_, listMax_mem hne,
      le_listMax, listMin_mem hne, listMin_le⟩⟩
    have hlen0 : (presentVals t k).length ≠ 0 := by
      intro h0
      exact hne (List.length_eq_zero.mp h0)
    have hlen : ((presentVals t k).length : ℚ) ≠ 0 := Nat.cast_ne_zero.mpr hlen0
    rw [listMean]
    exact div_mul_cancel₀ _ hlen
  · have hp : presentVals exTable "cpu" = [90, 50, 85] := rfl
    rw [stats_for1, if_pos ⟨by decide, by decide⟩, hp]
    norm_num [listMean, listMax, listMin]

/-- Witness for C4: the sentinel on a table that has rows but no cpu
column. -/
theorem c4_stats_w :
    stats_for1 ⟨["memory"], [[.num 10]]⟩ "cpu" = (0, 0, 0) :=
  (c4_stats ⟨["memory"], [[.num 10]]⟩ "cpu" (by decide)).2.1
    (by rintro ⟨h, _⟩; revert h; decide)

/-! ### Claim theorems: the alert annotator -/

theorem styleRow_getD (thr : Thr) :
    ∀ (cols : List String) (row : List Cell) (i : Nat), i < cols.length →
      cols.length = row.length →
      (styleRow thr cols row).getD i "" = styleCell thr (cols.getD i "") (row.getD i .na)
  | [], _, i, hi, _ => by simp at hi
  | c :: cs, [], i, hi, hlen => by simp at hlen
  | c :: cs, x :: xs, 0, _, _ => by simp [styleRow]
  | c :: cs, x :: xs, i + 1, hi, hlen => by
      have ih := styleRow_getD thr cs xs i (by simpa using hi) (by simpa using hlen)
      simpa [styleRow] using ih

theorem styleCell_iff (thr : Thr) (col : String) (cell : Cell) :
    styleCell thr col cell = HIGHLIGHT ↔
      col ∈ metricCols ∧ ∃ q, cell = .num q ∧ thr.get col < q := by
  have hne : ("" : String) ≠ HIGHLIGHT := by decide
  unfold styleCell
  by_cases hcol : col ∈ metricCols
  · rw [if_pos hcol]
    cases cell with
    | num q =>
        show (if thr.get col < q then HIGHLIGHT else "") = HIGHLIGHT ↔
          col ∈ metricCols ∧ ∃ q', Cell.num q = .num q' ∧ thr.get col < q'
        by_cases hq : thr.get col < q
        · rw [if_pos hq]
          exact iff_of_true rfl ⟨hcol, q, rfl, hq⟩
        · rw [if_neg hq]
          refine iff_of_false hne ?_
          rintro ⟨_, q', hq', hlt⟩
          rw [Cell.num.injEq] at hq'
          exact hq (hq' ▸ hlt)
    | na =>
        show ("" : String) = HIGHLIGHT ↔
          col ∈ metricCols ∧ ∃ q', Cell.na = .num q' ∧ thr.get col < q'
        refine iff_of_false hne ?_
        rintro ⟨_, q', hq', _⟩
        cases hq'
  · rw [if_neg hcol]
    refine iff_of_false hne ?_
    rintro ⟨h, _⟩
    exact hcol h

/-- Claim C5: a cell's alert style is the highlight exactly when its column
is one of cpu/memory/disk and its numeric value strictly exceeds that
column's threshold; a missing or non-numeric value and a non-metric column
never highlight.  With threshold 80, cpu = 80.01 highlights and a missing
cpu does not. -/
theorem c5_alert_iff (thr : Thr) (cols : List String) (row : List Cell) (i : Nat)
    (hi : i < cols.length) (hlen : cols.length = row.length) :
    ((styleRow thr cols row).getD i "" = HIGHLIGHT ↔
      cols.getD i "" ∈ metricCols ∧
        ∃ q, row.getD i .na = .num q ∧ thr.get (cols.getD i "") < q)
    ∧ styleCell ⟨80, 85, 90⟩ "cpu" (.num (8001 / 100)) = HIGHLIGHT
    ∧ styleCell ⟨80, 85, 90⟩ "cpu" .na = ""
    ∧ styleCell ⟨80, 85, 90⟩ "status" (.num 1000) = "" := by
  refine ⟨?_, ?_, rfl, rfl⟩
  · rw [styleRow_getD thr cols row i hi hlen]
    exact styleCell_iff thr _ _
  · rw [styleCell, if_pos (by decide), if_pos (by norm_num [Thr.get])]

/-- Witness for C5 on the one-column row `cpu = 90` against threshold 80:
the highlight decision holds. -/
theorem c5_alert_iff_w :
    (styleRow ⟨80, 85, 90⟩ ["cpu"] [.num 90]).getD 0 "" = HIGHLIGHT ↔
      ("cpu" : String) ∈ metricCols ∧
        ∃ q, ([(.num 90 : Cell)]).getD 0 .na = .num q ∧ Thr.get ⟨80, 85, 90⟩ "cpu" < q :=
  (c5_alert_iff ⟨80, 85, 90⟩ ["cpu"] [.num 90] 0 (by decide) rfl).1

/-! ### Claim theorem: the configuration page -/

/-- Claim C10 names a session-threshold lifecycle the code does not have:
in `page_config`, `t = st.session_state.thr` aliases the stored dict, so the
three slider assignments overwrite the stored thresholds on every rerun of
the page, whether or not Save is clicked.  This theorem evaluates the
modelled page at the failing input: starting from the defaults `80/85/90`,
rendering the page with the cpu slider at 30 and without pressing Save
leaves the session thresholds at `30/85/90`, not at the defaults. -/
theorem c10_thresholds_mutate_without_save :
    initSession.thr = ⟨80, 85, 90⟩
    ∧ (page_config initSession ⟨30, 85, 90⟩ false).thr = ⟨30, 85, 90⟩
    ∧ ¬(page_config initSession ⟨30, 85, 90⟩ false).thr = initSession.thr := by
  refine ⟨rfl, rfl, ?_⟩
  intro h
  have h30 : (30 : ℚ) = 80 := congrArg Thr.cpu h
  norm_num at h30

/-! ### The CSV round trip -/

/-- A rest-of-input at which an unquoted field may legally stop: empty, or
starting with a separator. -/
def okSep : List Char → Bool
  | [] => true
  | c :: _ => c = ',' || c = '\n'

/-- A rest-of-input that does not begin with a quote (so a closing quote
before it really closes its field). -/
def headNotQ : List Char → Bool
  | '"' :: _ => false
  | _ => true

theorem okSep_headNotQ {rest : List Char} (h : okSep rest = true) :
    headNotQ rest = true := by
  cases rest with
  | nil => rfl
  | cons c r =>
      simp only [okSep, Bool.or_eq_true, decide_eq_true_eq] at h
      rcases h with rfl | rfl <;> rfl

theorem takeUnquoted_spec (f : List Char) (rest : List Char)
    (hf : ∀ c ∈ f, needsQuote c = false) (hr : okSep rest = true) :
    takeUnquoted (f ++ rest) = (f, rest) := by
  induction f with
  | nil =>
      cases rest with
      | nil => rfl
      | cons c r =>
          simp only [okSep, Bool.or_eq_true, decide_eq_true_eq] at hr
          simp [takeUnquoted, hr]
  | cons c f' ih =>
      have hc := hf c (List.mem_cons_self c f')
      have h1 : ¬c = ',' := by
        intro h
        subst h
        simp [needsQuote] at hc
      have h2 : ¬c = '\n' := by
        intro h
        subst h
        simp [needsQuote] at hc
      have ih2 := ih fun x hx => hf x (List.mem_cons_of_mem c hx)
      simp [takeUnquoted, h1, h2, ih2]

theorem takeQuoted_spec (f : List Char) (rest : List Char)
    (hr : headNotQ rest = true) :
    takeQuoted (escQuotes f ++ '"' :: rest) = some (f, rest) := by
  induction f with
  | nil =>
      cases rest with
      | nil => rfl
      | cons r0 rr =>
          have hr0 : ¬r0 = '"' := by
            intro h
            subst h
            simp [headNotQ] at hr
          simp [escQuotes, takeQuoted, hr0]
  | cons c f' ih =>
      by_cases hc : c = '"'
      · subst hc
        have h1 : escQuotes ('"' :: f') ++ '"' :: rest
            = '"' :: '"' :: (escQuotes f' ++ '"' :: rest) := by
          simp [escQuotes]
        rw [h1, takeQuoted, if_pos rfl, if_pos rfl, ih]
        rfl
      · obtain ⟨d, r, hX⟩ : ∃ d r, escQuotes f' ++ '"' :: rest = d :: r := by
          cases hesc : escQuotes f' with
          | nil => exact ⟨'"', rest, by simp⟩
          | cons x xs => exact ⟨x, xs ++ '"' :: rest, by simp⟩
        have h1 : escQuotes (c :: f') ++ '"' :: rest
            = c :: (escQuotes f' ++ '"' :: rest) := by
          simp [escQuotes, hc]
        rw [h1, hX, takeQuoted, if_neg hc, ← hX, ih]
        rfl

theorem parseField_spec (f : List Char) (rest : List Char)
    (hr : okSep rest = true) :
    parseField (encField f ++ rest) = some (f, rest) := by
  by_cases hq : f.any needsQuote = true
  · rw [encField, if_pos hq]
    have h1 : ('"' :: (escQuotes f ++ ['"'])) ++ rest
        = '"' :: (escQuotes f ++ '"' :: rest) := by
      simp
    rw [h1, parseField, if_pos rfl]
    exact takeQuoted_spec f rest (okSep_headNotQ hr)
  · have hf : ∀ c ∈ f, needsQuote c = false := by
      intro c hc
      by_contra hcn
      exact hq (List.any_eq_true.mpr ⟨c, hc, by revert hcn; cases needsQuote c <;> simp⟩)
    rw [encField, if_neg hq]
    have htu := takeUnquoted_spec f rest hf hr
    cases f with
    | nil =>
        cases rest with
        | nil => rfl
        | cons c r =>
            have hcq : ¬c = '"' := by
              simp only [okSep, Bool.or_eq_true, decide_eq_true_eq] at hr
              rcases hr with rfl | rfl <;> decide
            simp only [List.nil_append] at htu ⊢
            rw [parseField, if_neg hcq, htu]
    | cons c f' =>
        have hcq : ¬c = '"' := by
          have hnq := hf c (List.mem_cons_self c f')
          intro hceq
          subst hceq
          simp [needsQuote] at hnq
        simp only [List.cons_append] at htu ⊢
        rw [parseField, if_neg hcq, htu]

theorem parseRecordF_spec :
    ∀ (r : List (List Char)) (fuel : Nat) (rest : List Char), r ≠ [] →
      r.length ≤ fuel →
      parseRecordF fuel (encRecord r ++ '\n' :: rest) = some (r, rest)
  | [], _, _, hne, _ => absurd rfl hne
  | [f], fuel, rest, _, hfuel => by
      obtain ⟨fuel', rfl⟩ : ∃ fuel', fuel = fuel' + 1 := by
        cases fuel with
        | zero => simp at hfuel
        | succ n => exact ⟨n, rfl⟩
      have hpf := parseField_spec f ('\n' :: rest) rfl
      rw [encRecord]
      simp [parseRecordF, hpf]
  | f :: g :: r', fuel, rest, _, hfuel => by
      obtain ⟨fuel', rfl⟩ : ∃ fuel', fuel = fuel' + 1 := by
        cases fuel with
        | zero => simp at hfuel
        | succ n => exact ⟨n, rfl⟩
      have harr : encRecord (f :: g :: r') ++ '\n' :: rest
          = encField f ++ ',' :: (encRecord (g :: r') ++ '\n' :: rest) := by
        rw [encRecord]
        simp
      have hpf := parseField_spec f (',' :: (encRecord (g :: r') ++ '\n' :: rest)) rfl
      have ih := parseRecordF_spec (g :: r') fuel' rest (by simp)
        (by simpa using Nat.lt_succ_iff.mp (by simpa using hfuel))
      rw [harr]
      simp [parseRecordF, hpf, ih]

theorem encRecord_length (r : List (List Char)) :
    r.length ≤ (encRecord r).length + 1 := by
  induction r with
  | nil => simp [encRecord]
  | cons f r' ih =>
      cases r' with
      | nil => simp [encRecord]
      | cons g r'' =>
          rw [encRecord]
          simp only [List.length_cons, List.length_append] at ih ⊢
          omega

theorem encCsv_cons (r : List (List Char)) (rs : List (List (List Char))) :
    encCsv (r :: rs) = encRecord r ++ '\n' :: encCsv rs := by
  simp [encCsv]

theorem length_le_encCsv (rs : List (List (List Char))) :
    rs.length ≤ (encCsv rs).length := by
  induction rs with
  | nil => simp [encCsv]
  | cons r rs' ih =>
      rw [encCsv_cons]
      simp only [List.length_cons, List.length_append, List.length_cons]
      omega

theorem parseCsvF_spec :
    ∀ (rs : List (List (List Char))) (fuel : Nat),
      (∀ r ∈ rs, r ≠ []) → rs.length < fuel →
      parseCsvF fuel (encCsv rs) = some rs
  | [], fuel, _, hfuel => by
      obtain ⟨fuel', rfl⟩ : ∃ fuel', fuel = fuel' + 1 := by
        cases fuel with
        | zero => simp at hfuel
        | succ n => exact ⟨n, rfl⟩
      rfl
  | r :: rs', fuel, hne, hfuel => by
      obtain ⟨fuel', rfl⟩ : ∃ fuel', fuel = fuel' + 1 := by
        cases fuel with
        | zero => simp at hfuel
        | succ n => exact ⟨n, rfl⟩
      rw [encCsv_cons]
      obtain ⟨c, s', hs⟩ : ∃ c s', encRecord r ++ '\n' :: encCsv rs' = c :: s' := by
        cases hrec : encRecord r with
        | nil => exact ⟨'\n', encCsv rs', by simp⟩
        | cons x xs => exact ⟨x, xs ++ '\n' :: encCsv rs', by simp⟩
      have hrlen : r.length ≤ (c :: s').length + 1 := by
        have h1 := encRecord_length r
        have h2 : (encRecord r).length ≤ (encRecord r ++ '\n' :: encCsv rs').length := by
          simp
        rw [hs] at h2
        omega
      have hrec := parseRecordF_spec r ((c :: s').length + 1) (encCsv rs')
        (hne r (List.mem_cons_self _ _)) hrlen
      rw [hs] at hrec
      simp only [List.length_cons] at hrec
      have ih := parseCsvF_spec rs' fuel'
        (fun x hx => hne x (List.mem_cons_of_mem _ hx)) (by simpa using hfuel)
      rw [hs]
      simp [parseCsvF, hrec, ih]

theorem csv_roundtrip (rs : List (List (List Char))) (hne : ∀ r ∈ rs, r ≠ []) :
    parseCsv (encCsv rs) = some rs :=
  parseCsvF_spec rs ((encCsv rs).length + 1) hne
    (Nat.lt_succ_of_le (length_le_encCsv rs))

/-- Claim C8 (CSV writer and reader modelled from the spec, the code being
pandas' `to_csv(index=False)` on src/app.py line 250): serializing a table
(header row first, columns in order), parsing the emitted CSV back and
re-serializing yields byte-identical output; a field containing a comma is
quoted and recovered exactly. -/
theorem c8_csv_roundtrip (hdr : List (List Char)) (rows : List (List (List Char)))
    (hh : hdr ≠ []) (harity : ∀ r ∈ rows, r.length = hdr.length) :
    parseCsv (encCsv (hdr :: rows)) = some (hdr :: rows)
    ∧ (∀ rs', parseCsv (encCsv (hdr :: rows)) = some rs' →
        encCsv rs' = encCsv (hdr :: rows))
    ∧ encField (lchars "a,b") = lchars "\"a,b\""
    ∧ parseField (encField (lchars "a,b")) = some (lchars "a,b", []) := by
  have hne : ∀ r ∈ hdr :: rows, r ≠ [] := by
    intro r hr
    rcases List.mem_cons.mp hr with rfl | hr2
    · exact hh
    · intro h0
      have := harity r hr2
      rw [h0] at this
      exact hh (List.length_eq_zero.mp this.symm)
  have h1 := csv_roundtrip (hdr :: rows) hne
  refine ⟨h1, ?_, rfl, rfl⟩
  intro rs' hrs'
  rw [h1] at hrs'
  rw [Option.some.injEq] at hrs'
  rw [hrs']

/-- Witness for C8 on a concrete two-column table whose data row contains a
comma-bearing cell. -/
theorem c8_csv_roundtrip_w :
    parseCsv (encCsv [[lchars "cpu", lchars "note"], [lchars "90", lchars "a,b"]])
      = some [[lchars "cpu", lchars "note"], [lchars "90", lchars "a,b"]] :=
  (c8_csv_roundtrip [lchars "cpu", lchars "note"] [[lchars "90", lchars "a,b"]]
    (by decide) (by decide)).1

end Dashboard
